import Mathlib

/-!
# Verification of the `twod` Mandelbrot renderer

A shallow embedding of `src/main.rs` (a Mandelbrot rasterizer), at two levels
of numeric fidelity.

The first group of definitions models `f64` over `ℚ` — the exact-arithmetic
idealization.  It is faithful for the claims whose content does not depend on
rounding: structural properties of the escape loop (least escape index,
Some(0) impossibility, z = 0 staying exactly 0, which hold verbatim in f64),
and concrete values that binary64 represents and computes exactly (the
coordinate-mapper corner and scenario values).  It is **not** faithful for
the band/monolithic buffer identity, which hinges on the cancellation
`(w * width) / w = width` — true in `ℚ`, false under f64 rounding.

For that, a second group of definitions (`F64`, `pixel_to_point64`,
`escape_time64`, `render64`, `renderBands64`) models IEEE-754 binary64
arithmetic itself — dyadic significand/exponent pairs with every operation
rounded to 53 bits, nearest-even — and refutes the identity at a concrete
viewport.

`u8` arithmetic is modelled on `Nat`, with `% 256` where the source's
release-mode wrapping multiplication matters.  Fatal panics (the `assert!`
in `render`, and `u8` division by zero) are modelled with `Except`.
-/

namespace Twod

/-- Model of `num::Complex<f64>`: a pair of coordinates, here over `ℚ`. -/
structure Complex where
  re : ℚ
  im : ℚ
deriving DecidableEq, Repr

instance : Add Complex :=
  ⟨fun a b => ⟨a.re + b.re, a.im + b.im⟩⟩

instance : Mul Complex :=
  ⟨fun a b => ⟨a.re * b.re - a.im * b.im, a.re * b.im + a.im * b.re⟩⟩

theorem Complex.add_def (a b : Complex) :
    a + b = ⟨a.re + b.re, a.im + b.im⟩ := rfl

theorem Complex.mul_def (a b : Complex) :
    a * b = ⟨a.re * b.re - a.im * b.im, a.re * b.im + a.im * b.re⟩ := rfl

/-- `Complex::norm_sqr`: squared magnitude `re² + im²`. -/
def norm_sqr (z : Complex) : ℚ := z.re * z.re + z.im * z.im

/-- An RGB pixel `[u8; 3]`, each channel a `Nat` below 256. -/
abbrev Pixel := Nat × Nat × Nat

/-- The two fatal panics the rendering code can hit: the `assert!` on the
buffer length at the top of `render`, and `u8` division by zero in the
blue-channel formula. -/
inductive RenderError where
  | assertionFailure
  | divByZero
deriving DecidableEq, Repr

/-- Model of `str::find(char)` at the character level: index of the first
occurrence of `sep`, or `none`.  (The separators the program uses are ASCII,
so byte indices and character indices coincide.) -/
def findChar (sep : Char) : List Char → Option Nat
  | [] => none
  | c :: rest => if c = sep then some 0 else (findChar sep rest).map (· + 1)

/-- `parse_pair` from the source, generic over the element parser standing in
for `T::from_str`: split at the first occurrence of `separator`, parse the
part strictly before it and the whole remainder after it. -/
def parse_pair {T : Type} (fromStr : List Char → Option T)
    (s : List Char) (separator : Char) : Option (T × T) :=
  match findChar separator s with
  | none => none
  | some index =>
    match fromStr (s.take index), fromStr (s.drop (index + 1)) with
    | some l, some r => some (l, r)
    | _, _ => none

/-- Numeric value of a run of decimal digits (most significant first). -/
def digitsVal (l : List Char) : Nat :=
  l.foldl (fun acc c => 10 * acc + (c.toNat - 48)) 0

/-- Model of Rust's `i32::from_str` (external standard-library collaborator):
an optional sign followed by one or more ASCII digits, rejecting anything
else, with the `i32` range check. -/
def parseI32 (s : List Char) : Option Int :=
  match s with
  | [] => none
  | c :: rest =>
    let ds := if c = '-' ∨ c = '+' then rest else s
    let neg := c = '-'
    if ds.isEmpty then none
    else if ds.all (fun d => d.isDigit) then
      let v : Int := if neg then -(digitsVal ds : Int) else (digitsVal ds : Int)
      if -(2 ^ 31) ≤ v ∧ v < 2 ^ 31 then some v else none
    else none

/-- Digit-level decomposition of an unsigned decimal literal: integer part
value, fractional part value, and fractional digit count.  `none` when the
input is not a plain decimal literal. -/
def parseF64parts (s : List Char) : Option (Nat × Nat × Nat) :=
  let ip := s.takeWhile (fun d => d.isDigit)
  let rest := s.dropWhile (fun d => d.isDigit)
  match rest with
  | [] => if ip.isEmpty then none else some (digitsVal ip, 0, 0)
  | c :: frac =>
    if c = '.' then
      if frac.all (fun d => d.isDigit) ∧ ¬(ip.isEmpty ∧ frac.isEmpty) then
        some (digitsVal ip, digitsVal frac, frac.length)
      else none
    else none

/-- The rational value of a decomposed decimal literal. -/
def ratOfParts (sign : Bool) (p : Nat × Nat × Nat) : ℚ :=
  (if sign then -1 else 1) * ((p.1 : ℚ) + (p.2.1 : ℚ) / (10 : ℚ) ^ p.2.2)

/-- Model of Rust's `f64::from_str` (external standard-library collaborator)
on the plain-decimal subset the program exercises: an optional sign and a
decimal literal.  The inputs the claims use (`0.5`, `1.5`) are dyadic, so the
exact rational value coincides with the `f64` it parses to. -/
def parseF64 (s : List Char) : Option ℚ :=
  match s with
  | [] => none
  | c :: rest =>
    if c = '-' then (parseF64parts rest).map (ratOfParts true)
    else if c = '+' then (parseF64parts rest).map (ratOfParts false)
    else (parseF64parts s).map (ratOfParts false)

/-- `pixel_to_point` from the source: linear interpolation of a pixel
coordinate `(column, row)` into the viewport rectangle.  This is the
exact-arithmetic idealization of the `f64` formula (see the module comment);
rounding-sensitive statements use `pixel_to_point64` below instead. -/
def pixel_to_point (bounds : Nat × Nat) (pixel : Nat × Nat)
    (upper_left lower_right : Complex) : Complex :=
  let width := lower_right.re - upper_left.re
  let height := upper_left.im - lower_right.im
  { re := upper_left.re + (pixel.1 : ℚ) * width / (bounds.1 : ℚ)
    im := upper_left.im - (pixel.2 : ℚ) * height / (bounds.2 : ℚ) }

/-- The loop of `escape_time`: `fuel` iterations remain, `i` is the current
loop index, `z` the current iterate. -/
def escapeLoop (c : Complex) (radius : ℚ) : Nat → Nat → Complex → Option Nat
  | 0, _, _ => none
  | fuel + 1, i, z =>
    if norm_sqr z > radius then some i
    else escapeLoop c radius fuel (i + 1) (z * z + c)

/-- `escape_time` from the source: iterate `z ← z² + c` from `z = 0`, testing
`|z|² > radius` before each update, for at most `limit` steps. -/
def escape_time (c : Complex) (limit : Nat) (radius : ℚ) : Option Nat :=
  escapeLoop c radius limit 0 ⟨0, 0⟩

/-- The escape-time iterates: `z_0 = 0`, `z_{n+1} = z_n² + c`. -/
def zIter (c : Complex) : Nat → Complex
  | 0 => ⟨0, 0⟩
  | n + 1 => zIter c n * zIter c n + c

/-- The `energy` byte computed in `render`'s match on `escape_time`:
`None ↦ 0`, `Some(count) ↦ 255 - count as u8`.  The `as u8` cast is `% 256`;
the subtraction from 255 never wraps. -/
def energyOf (res : Option Nat) : Nat :=
  match res with
  | none => 0
  | some count => 255 - count % 256

/-- The pixel written by `render` for one escape result, from the array
expression `[energy, energy * (255 - energy), energy / (255 - energy)]`.
The `u8` multiplication wraps (`% 256`, release semantics); the `u8`
division panics when its divisor `255 - energy` is zero. -/
def colorize (res : Option Nat) : Except RenderError Pixel :=
  if 255 - energyOf res = 0 then Except.error RenderError.divByZero
  else Except.ok (energyOf res, energyOf res * (255 - energyOf res) % 256,
    energyOf res / (255 - energyOf res))

/-- One iteration of `render`'s inner loop body at pixel `(column, row)`:
map the pixel into the plane, run the escape test with the hard-coded
iteration limit 255, and colorize. -/
def renderPixel (bounds : Nat × Nat) (pixel : Nat × Nat)
    (upper_left lower_right : Complex) (radius : ℚ) : Except RenderError Pixel :=
  colorize (escape_time (pixel_to_point bounds pixel upper_left lower_right) 255 radius)

/-- Sequence a fallible computation over a list, stopping at the first
failure — the effect of `render`'s loop, which panics at the first bad
pixel. -/
def exMapM {E A B : Type} (f : A → Except E B) : List A → Except E (List B)
  | [] => Except.ok []
  | a :: as =>
    match f a with
    | Except.error e => Except.error e
    | Except.ok b =>
      match exMapM f as with
      | Except.error e => Except.error e
      | Except.ok bs => Except.ok (b :: bs)

/-- The pixel coordinates visited by `render`'s nested loops, row-major:
`row` in `0..height` outer, `column` in `0..width` inner. -/
def gridCoords (width height : Nat) : List (Nat × Nat) :=
  (List.range height).flatMap (fun row => (List.range width).map (fun col => (col, row)))

/-- `render` from the source: assert the buffer length matches the bounds,
then overwrite the buffer row-major with the colorized pixels.  The result is
the final buffer content; the input buffer's content is irrelevant beyond its
length. -/
def render (pixels : List Pixel) (bounds : Nat × Nat)
    (upper_left lower_right : Complex) (radius : ℚ) : Except RenderError (List Pixel) :=
  if pixels.length = bounds.1 * bounds.2 then
    exMapM (fun p => renderPixel bounds p upper_left lower_right radius)
      (gridCoords bounds.1 bounds.2)
  else Except.error RenderError.assertionFailure

/-- Fuel-bounded worker for `chunks`: the fuel only caps the number of
chunks and is irrelevant once it is at least the list length (each step
consumes at least one element when `w > 0`). -/
def chunksF {α : Type} (w : Nat) : Nat → List α → List (List α)
  | _, [] => []
  | 0, _ :: _ => []
  | fuel + 1, a :: rest =>
    (a :: rest).take w :: chunksF w fuel ((a :: rest).drop w)

/-- Model of `slice::chunks(w)`: split a list into consecutive chunks of
length `w` (the last may be shorter).  `chunks_mut(0)` panics in Rust and is
never called here; it is given the value `[]`. -/
def chunks {α : Type} (w : Nat) (l : List α) : List (List α) :=
  if w = 0 then [] else chunksF w l.length l

/-- The band dispatch in `main` (lines 124–141): split the buffer into
one-row bands via `chunks_mut(width).enumerate()`, give band `top` the
viewport corners obtained by mapping pixels `(0, top)` and `(width, top+1)`
against the full bounds and viewport, and render each band with bounds
`(width, 1)`.  Band execution is concurrent in the source but each band owns
a disjoint slice, so the sequential concatenation below is the resulting
buffer. -/
def renderBands (pixels : List Pixel) (bounds : Nat × Nat)
    (upper_left lower_right : Complex) (radius : ℚ) : Except RenderError (List Pixel) :=
  Except.map List.flatten
    (exMapM
      (fun b =>
        render b.2 (bounds.1, 1)
          (pixel_to_point bounds (0, b.1) upper_left lower_right)
          (pixel_to_point bounds (bounds.1, b.1 + 1) upper_left lower_right)
          radius)
      (chunks bounds.1 pixels).enum)

/-! ## IEEE-754 binary64 arithmetic

The definitions above idealize `f64` as exact rationals.  That idealization
is faithful for every claim whose content is independent of rounding, but
not for the band/monolithic buffer identity, which hinges on the cancellation
`(w * width) / w = width` — true in `ℚ`, false under `f64` rounding.  The
definitions below model `f64` itself: a finite double is a dyadic value
`m * 2^e`, and every operation rounds its exact result to 53 significant
bits, round-to-nearest ties-to-even, exactly as IEEE-754 binary64 does for
`+`, `-`, `*`, `/` on the normal range.  Exponents are unbounded, so the
model agrees with binary64 whenever no overflow or subnormal arises — true
of every value in the evaluated traces (all magnitudes lie well inside
`[2^-200, 2^200]`).  Infinities and NaNs never arise in those traces and are
not modelled. -/

/-- Fuel-bounded bit length; the fuel 4096 is irrelevant for every number
below `2^4096`, far above anything arising here. -/
def bitlenAux : Nat → Nat → Nat
  | 0, _ => 0
  | fuel + 1, n => if n = 0 then 0 else bitlenAux fuel (n / 2) + 1

/-- Number of binary digits of `n`. -/
def bitlen (n : Nat) : Nat := bitlenAux 4096 n

/-- A finite binary64 value `m * 2^e` (unnormalized representation; the
operations below always compare and combine by value). -/
structure F64 where
  m : Int
  e : Int
deriving DecidableEq, Repr

/-- Round the exact dyadic value `m * 2^e` to 53 significant bits,
round-to-nearest ties-to-even — the binary64 rounding of any exactly
representable intermediate (sums, differences, products). -/
def round53 (m e : Int) : F64 :=
  if m = 0 then ⟨0, 0⟩
  else
    let n := m.natAbs
    let L := bitlen n
    if L ≤ 53 then ⟨m, e⟩
    else
      let k := L - 53
      let q := n / 2 ^ k
      let rem := n % 2 ^ k
      let half := 2 ^ (k - 1)
      let q' := if half < rem ∨ (rem = half ∧ q % 2 = 1) then q + 1 else q
      ⟨if m < 0 then -(q' : Int) else (q' : Int), e + (k : Int)⟩

/-- binary64 addition: exact sum (after exponent alignment), then round. -/
def f64Add (x y : F64) : F64 :=
  if x.e ≤ y.e then round53 (x.m + y.m * ((2 ^ (y.e - x.e).toNat : Nat) : Int)) x.e
  else round53 (x.m * ((2 ^ (x.e - y.e).toNat : Nat) : Int) + y.m) y.e

/-- binary64 negation (exact). -/
def f64Neg (x : F64) : F64 := ⟨-x.m, x.e⟩

/-- binary64 subtraction: exact difference, then round. -/
def f64Sub (x y : F64) : F64 := f64Add x (f64Neg y)

/-- binary64 multiplication: exact product, then round. -/
def f64Mul (x y : F64) : F64 := round53 (x.m * y.m) (x.e + y.e)

/-- binary64 division: the quotient is computed with 53 guard bits and a
sticky remainder, then rounded to nearest, ties to even — the correctly
rounded quotient.  Division by zero does not occur in this development
(the divisors are the nonzero image bounds); that case is given an
arbitrary value. -/
def f64Div (x y : F64) : F64 :=
  if x.m = 0 then ⟨0, 0⟩
  else if y.m = 0 then ⟨0, 0⟩
  else
    let n := x.m.natAbs
    let d := y.m.natAbs
    let k := 53 + bitlen d
    let bigN := n * 2 ^ k
    let q := bigN / d
    let r := bigN % d
    let j := bitlen q - 53
    let qq := q / 2 ^ j
    let tail := q % 2 ^ j
    let half := 2 ^ (j - 1)
    let qr := if half < tail ∨ (tail = half ∧ (r ≠ 0 ∨ qq % 2 = 1)) then qq + 1 else qq
    ⟨if x.m < 0 ↔ y.m < 0 then (qr : Int) else -(qr : Int),
      x.e - y.e - (k : Int) + (j : Int)⟩

/-- binary64 strict comparison (exact on finite values). -/
def f64Blt (x y : F64) : Bool :=
  if x.e ≤ y.e then decide (x.m < y.m * ((2 ^ (y.e - x.e).toNat : Nat) : Int))
  else decide (x.m * ((2 ^ (x.e - y.e).toNat : Nat) : Int) < y.m)

/-- The `usize as f64` cast: round the integer to nearest binary64. -/
def f64OfNat (n : Nat) : F64 := round53 (n : Int) 0

/-- `num::Complex<f64>` with genuine binary64 components. -/
structure Complex64 where
  re : F64
  im : F64
deriving DecidableEq, Repr

/-- `Complex::norm_sqr` in binary64: `re*re + im*im`, each op rounded. -/
def norm_sqr64 (z : Complex64) : F64 := f64Add (f64Mul z.re z.re) (f64Mul z.im z.im)

/-- `pixel_to_point` with the source's exact `f64` evaluation order:
`upper_left.re + (pixel.0 as f64 * width) / bounds.0 as f64`, every
operation rounded. -/
def pixel_to_point64 (bounds pixel : Nat × Nat)
    (upper_left lower_right : Complex64) : Complex64 :=
  let width := f64Sub lower_right.re upper_left.re
  let height := f64Sub upper_left.im lower_right.im
  { re := f64Add upper_left.re (f64Div (f64Mul (f64OfNat pixel.1) width) (f64OfNat bounds.1))
    im := f64Sub upper_left.im (f64Div (f64Mul (f64OfNat pixel.2) height) (f64OfNat bounds.2)) }

/-- The `escape_time` loop in binary64; `z * z + c` follows `num`'s complex
multiplication `(a*c - b*d, a*d + b*c)` with each operation rounded. -/
def escapeLoop64 (c : Complex64) (radius : F64) : Nat → Nat → Complex64 → Option Nat
  | 0, _, _ => none
  | fuel + 1, i, z =>
    if f64Blt radius (norm_sqr64 z) then some i
    else escapeLoop64 c radius fuel (i + 1)
      ⟨f64Add (f64Sub (f64Mul z.re z.re) (f64Mul z.im z.im)) c.re,
        f64Add (f64Add (f64Mul z.re z.im) (f64Mul z.im z.re)) c.im⟩

/-- `escape_time` in binary64. -/
def escape_time64 (c : Complex64) (limit : Nat) (radius : F64) : Option Nat :=
  escapeLoop64 c radius limit 0 ⟨⟨0, 0⟩, ⟨0, 0⟩⟩

/-- `render`'s loop body in binary64; the colorization is the same byte
arithmetic as `colorize`. -/
def renderPixel64 (bounds pixel : Nat × Nat) (upper_left lower_right : Complex64)
    (radius : F64) : Except RenderError Pixel :=
  colorize (escape_time64 (pixel_to_point64 bounds pixel upper_left lower_right) 255 radius)

/-- `render` from the source, in binary64. -/
def render64 (pixels : List Pixel) (bounds : Nat × Nat)
    (upper_left lower_right : Complex64) (radius : F64) : Except RenderError (List Pixel) :=
  if pixels.length = bounds.1 * bounds.2 then
    exMapM (fun p => renderPixel64 bounds p upper_left lower_right radius)
      (gridCoords bounds.1 bounds.2)
  else Except.error RenderError.assertionFailure

/-- The band dispatch of `main`, in binary64: identical structure to
`renderBands`, with the band corners computed through rounded `f64`
arithmetic as the program does. -/
def renderBands64 (pixels : List Pixel) (bounds : Nat × Nat)
    (upper_left lower_right : Complex64) (radius : F64) : Except RenderError (List Pixel) :=
  Except.map List.flatten
    (exMapM
      (fun b =>
        render64 b.2 (bounds.1, 1)
          (pixel_to_point64 bounds (0, b.1) upper_left lower_right)
          (pixel_to_point64 bounds (bounds.1, b.1 + 1) upper_left lower_right)
          radius)
      (chunks bounds.1 pixels).enum)

/-! ## The escape loop -/

theorem zIter_succ (c : Complex) (n : Nat) :
    zIter c (n + 1) = zIter c n * zIter c n + c := rfl

theorem escapeLoop_some_iff (c : Complex) (r : ℚ) :
    ∀ (fuel i j : Nat), escapeLoop c r fuel i (zIter c i) = some j ↔
      (i ≤ j ∧ j < i + fuel ∧ r < norm_sqr (zIter c j) ∧
        ∀ k, i ≤ k → k < j → norm_sqr (zIter c k) ≤ r) := by
  intro fuel
  induction fuel with
  | zero =>
    intro i j
    constructor
    · intro h; exact absurd h (by simp [escapeLoop])
    · rintro ⟨h1, h2, -, -⟩; omega
  | succ fuel ih =>
    intro i j
    have hz : zIter c i * zIter c i + c = zIter c (i + 1) := rfl
    by_cases hlt : norm_sqr (zIter c i) > r
    · constructor
      · intro h
        simp only [escapeLoop, if_pos hlt, Option.some.injEq] at h
        subst h
        exact ⟨le_refl i, by omega, hlt, fun k hk1 hk2 => by omega⟩
      · rintro ⟨h1, h2, h3, h4⟩
        have hji : j = i := by
          by_contra hne
          have hij : i < j := lt_of_le_of_ne h1 (Ne.symm hne)
          exact absurd hlt (not_lt.mpr (h4 i (le_refl i) hij))
        subst hji
        simp only [escapeLoop, if_pos hlt]
    · have hle : norm_sqr (zIter c i) ≤ r := not_lt.mp hlt
      constructor
      · intro h
        simp only [escapeLoop, if_neg hlt] at h
        rw [hz] at h
        obtain ⟨h1, h2, h3, h4⟩ := (ih (i + 1) j).mp h
        refine ⟨by omega, by omega, h3, fun k hk1 hk2 => ?_⟩
        rcases eq_or_lt_of_le hk1 with heq | hk
        · exact heq ▸ hle
        · exact h4 k hk hk2
      · rintro ⟨h1, h2, h3, h4⟩
        have hij : i < j := by
          rcases eq_or_lt_of_le h1 with heq | h
          · exact absurd (heq ▸ h3) hlt
          · exact h
        simp only [escapeLoop, if_neg hlt]
        rw [hz]
        exact (ih (i + 1) j).mpr ⟨by omega, by omega, h3,
          fun k hk1 hk2 => h4 k (by omega) hk2⟩

theorem escape_time_some_iff (c : Complex) (limit : Nat) (r : ℚ) (i : Nat) :
    escape_time c limit r = some i ↔
      (i < limit ∧ r < norm_sqr (zIter c i) ∧
        ∀ j, j < i → norm_sqr (zIter c j) ≤ r) := by
  have h0 : escape_time c limit r = escapeLoop c r limit 0 (zIter c 0) := rfl
  rw [h0, escapeLoop_some_iff]
  constructor
  · rintro ⟨-, h2, h3, h4⟩
    exact ⟨by omega, h3, fun j hj => h4 j (Nat.zero_le j) hj⟩
  · rintro ⟨h1, h2, h3⟩
    exact ⟨Nat.zero_le i, by omega, h2, fun k _ hk => h3 k hk⟩

theorem escape_time_none_iff (c : Complex) (limit : Nat) (r : ℚ) :
    escape_time c limit r = none ↔
      ∀ i, i < limit → norm_sqr (zIter c i) ≤ r := by
  constructor
  · intro h i hi
    by_contra hno
    push_neg at hno
    have hex : ∃ n, n < limit ∧ r < norm_sqr (zIter c n) := ⟨i, hi, hno⟩
    have hfind := Nat.find_spec hex
    have hsome : escape_time c limit r = some (Nat.find hex) :=
      (escape_time_some_iff c limit r (Nat.find hex)).mpr
        ⟨hfind.1, hfind.2, fun j hj => by
          have hmin := Nat.find_min hex hj
          push_neg at hmin
          exact hmin (lt_trans hj hfind.1)⟩
    rw [hsome] at h
    exact Option.noConfusion h
  · intro h
    cases hv : escape_time c limit r with
    | none => rfl
    | some k =>
      obtain ⟨h1, h2, -⟩ := (escape_time_some_iff c limit r k).mp hv
      exact absurd h2 (not_lt.mpr (h k h1))

/-! ## The zero point and the energy bound -/

theorem zIter_zero_point (n : Nat) : zIter ⟨0, 0⟩ n = ⟨0, 0⟩ := by
  induction n with
  | zero => rfl
  | succ n ih =>
    rw [zIter_succ, ih]
    show Complex.mk (0 * 0 - 0 * 0 + 0) (0 * 0 + 0 * 0 + 0) = Complex.mk 0 0
    norm_num

theorem norm_sqr_zero_point : norm_sqr ⟨0, 0⟩ = 0 := by
  simp [norm_sqr]

theorem norm_sqr_zIter_zero (c : Complex) : norm_sqr (zIter c 0) = 0 :=
  norm_sqr_zero_point

theorem escape_time_zero_point (limit : Nat) (r : ℚ) (hr : 0 ≤ r) :
    escape_time ⟨0, 0⟩ limit r = none := by
  rw [escape_time_none_iff]
  intro i _
  rw [zIter_zero_point, norm_sqr_zero_point]
  exact hr

theorem escape_time_ne_some_zero (c : Complex) (limit : Nat) (r : ℚ) (hr : 0 ≤ r) :
    escape_time c limit r ≠ some 0 := by
  intro h
  obtain ⟨-, h2, -⟩ := (escape_time_some_iff c limit r 0).mp h
  have hz : norm_sqr (zIter c 0) = 0 := norm_sqr_zero_point
  rw [hz] at h2
  exact absurd h2 (not_lt.mpr hr)

theorem energyOf_le_254 (c : Complex) (r : ℚ) (hr : 0 ≤ r) :
    energyOf (escape_time c 255 r) ≤ 254 := by
  cases hv : escape_time c 255 r with
  | none => simp [energyOf]
  | some k =>
    obtain ⟨h1, -, -⟩ := (escape_time_some_iff c 255 r k).mp hv
    have hk0 : k ≠ 0 := by
      intro h; exact escape_time_ne_some_zero c 255 r hr (h ▸ hv)
    simp only [energyOf]
    have : k % 256 = k := Nat.mod_eq_of_lt (by omega)
    omega

/-! ## Colorize -/

theorem colorize_none_eq : colorize none = Except.ok (0, 0, 0) := rfl

theorem colorize_some_zero : colorize (some 0) = Except.error RenderError.divByZero := rfl

theorem colorize_ok_of_energy_le (res : Option Nat) (h : energyOf res ≤ 254) :
    colorize res = Except.ok (energyOf res, energyOf res * (255 - energyOf res) % 256,
      energyOf res / (255 - energyOf res)) := by
  rw [colorize, if_neg (by omega)]

theorem colorize_ne_assert (res : Option Nat) :
    colorize res ≠ Except.error RenderError.assertionFailure := by
  rw [colorize]
  split
  · intro h
    exact RenderError.noConfusion (Except.error.inj h)
  · intro h
    exact Except.noConfusion h

/-! ## Sequencing lemmas for exMapM -/

theorem exMapM_nil {E A B : Type} (f : A → Except E B) : exMapM f [] = Except.ok [] := rfl

theorem exMapM_cons_err {E A B : Type} (f : A → Except E B) (a : A) (l : List A)
    (e : E) (h : f a = Except.error e) : exMapM f (a :: l) = Except.error e := by
  simp [exMapM, h]

theorem exMapM_cons_ok {E A B : Type} (f : A → Except E B) (a : A) (l : List A)
    (b : B) (h : f a = Except.ok b) :
    exMapM f (a :: l) =
      match exMapM f l with
      | Except.error e => Except.error e
      | Except.ok bs => Except.ok (b :: bs) := by
  simp [exMapM, h]

theorem exMapM_congr {E A B : Type} (f g : A → Except E B) (l : List A)
    (h : ∀ a, a ∈ l → f a = g a) : exMapM f l = exMapM g l := by
  induction l with
  | nil => rfl
  | cons a l ih =>
    simp only [exMapM, h a (List.mem_cons_self a l),
      ih (fun x hx => h x (List.mem_cons_of_mem a hx))]

theorem exMapM_map {E A B C : Type} (f : B → Except E C) (g : A → B) (l : List A) :
    exMapM f (l.map g) = exMapM (fun a => f (g a)) l := by
  induction l with
  | nil => rfl
  | cons a l ih => simp only [List.map_cons, exMapM, ih]

theorem exMapM_append {E A B : Type} (f : A → Except E B) (l₁ l₂ : List A) :
    exMapM f (l₁ ++ l₂) =
      match exMapM f l₁, exMapM f l₂ with
      | Except.error e, _ => Except.error e
      | Except.ok _, Except.error e => Except.error e
      | Except.ok b₁, Except.ok b₂ => Except.ok (b₁ ++ b₂) := by
  induction l₁ with
  | nil =>
    rw [List.nil_append, exMapM_nil]
    cases h2 : exMapM f l₂ <;> simp
  | cons a l ih =>
    rw [List.cons_append]
    rcases hfa : f a with e | b
    · rw [exMapM_cons_err f a (l ++ l₂) e hfa, exMapM_cons_err f a l e hfa]
    · rw [exMapM_cons_ok f a (l ++ l₂) b hfa, exMapM_cons_ok f a l b hfa, ih]
      cases h1 : exMapM f l <;> cases h2 : exMapM f l₂ <;> simp

theorem exMapM_flatMap {E A B C : Type} (f : B → Except E C) (g : A → List B) (l : List A) :
    exMapM f (l.flatMap g) =
      Except.map List.flatten (exMapM (fun a => exMapM f (g a)) l) := by
  induction l with
  | nil => rfl
  | cons a l ih =>
    rw [List.flatMap_cons, exMapM_append, ih]
    simp only [exMapM]
    cases h1 : exMapM f (g a) <;>
      cases h2 : exMapM (fun a => exMapM f (g a)) l <;>
      simp [Except.map]

theorem exMapM_ok_of_forall {E A B : Type} (f : A → Except E B) (l : List A)
    (h : ∀ a, a ∈ l → ∃ b, f a = Except.ok b) : ∃ bs, exMapM f l = Except.ok bs := by
  induction l with
  | nil => exact ⟨[], rfl⟩
  | cons a l ih =>
    obtain ⟨b, hb⟩ := h a (List.mem_cons_self a l)
    obtain ⟨bs, hbs⟩ := ih (fun x hx => h x (List.mem_cons_of_mem a hx))
    exact ⟨b :: bs, by simp [exMapM, hb, hbs]⟩

theorem exMapM_error_mem {E A B : Type} (f : A → Except E B) (l : List A) (e : E)
    (h : exMapM f l = Except.error e) : ∃ a, a ∈ l ∧ f a = Except.error e := by
  induction l with
  | nil => exact Except.noConfusion h
  | cons a l ih =>
    rcases hfa : f a with e' | b
    · rw [exMapM_cons_err f a l e' hfa] at h
      have he : e' = e := Except.error.inj h
      exact ⟨a, List.mem_cons_self a l, by rw [hfa, he]⟩
    · rw [exMapM_cons_ok f a l b hfa] at h
      rcases hl : exMapM f l with e' | bs
      · rw [hl] at h
        have he : e' = e := Except.error.inj h
        obtain ⟨x, hx1, hx2⟩ := ih (by rw [hl, he])
        exact ⟨x, List.mem_cons_of_mem a hx1, hx2⟩
      · rw [hl] at h
        exact Except.noConfusion h

/-! ## Coordinate mapping -/

theorem pixel_to_point_origin (w h : Nat) (ul lr : Complex) :
    pixel_to_point (w, h) (0, 0) ul lr = ul := by
  cases ul with
  | mk a b => simp [pixel_to_point]

theorem pixel_to_point_corner (w h : Nat) (hw : w ≠ 0) (hh : h ≠ 0) (ul lr : Complex) :
    pixel_to_point (w, h) (w, h) ul lr = lr := by
  have hw' : (w : ℚ) ≠ 0 := Nat.cast_ne_zero.mpr hw
  have hh' : (h : ℚ) ≠ 0 := Nat.cast_ne_zero.mpr hh
  cases ul with
  | mk a b =>
    cases lr with
    | mk p q =>
      simp only [pixel_to_point, Complex.mk.injEq]
      refine ⟨?_, ?_⟩ <;> (field_simp; try ring)

theorem pixel_to_point_concrete :
    pixel_to_point (100, 200) (25, 175) ⟨-1, 1⟩ ⟨1, -1⟩ = ⟨-1/2, -3/4⟩ := by
  simp only [pixel_to_point, Complex.mk.injEq]
  norm_num

theorem pixel_to_point_band (w h : Nat) (hw : w ≠ 0) (col t : Nat) (ul lr : Complex) :
    pixel_to_point (w, 1) (col, 0)
      (pixel_to_point (w, h) (0, t) ul lr)
      (pixel_to_point (w, h) (w, t + 1) ul lr)
    = pixel_to_point (w, h) (col, t) ul lr := by
  have hw' : (w : ℚ) ≠ 0 := Nat.cast_ne_zero.mpr hw
  cases ul with
  | mk a b =>
    cases lr with
    | mk p q =>
      simp only [pixel_to_point, Complex.mk.injEq]
      refine ⟨?_, ?_⟩ <;> (push_cast; try field_simp; try ring)

/-! ## Bands versus monolithic rendering -/

theorem chunksF_congr {α : Type} (w : Nat) (hw : w ≠ 0) :
    ∀ (f1 : Nat) (l : List α) (f2 : Nat), l.length ≤ f1 → l.length ≤ f2 →
      chunksF w f1 l = chunksF w f2 l := by
  intro f1
  induction f1 with
  | zero =>
    intro l f2 h1 _
    have hnil : l = [] := List.eq_nil_of_length_eq_zero (by omega)
    subst hnil
    cases f2 <;> rfl
  | succ f1 ih =>
    intro l f2 h1 h2
    cases l with
    | nil => cases f2 <;> rfl
    | cons a rest =>
      cases f2 with
      | zero => simp at h2
      | succ f2 =>
        show (a :: rest).take w :: chunksF w f1 ((a :: rest).drop w)
          = (a :: rest).take w :: chunksF w f2 ((a :: rest).drop w)
        congr 1
        have hd : ((a :: rest).drop w).length ≤ rest.length := by
          rw [List.length_drop, List.length_cons]
          omega
        have hl1 : rest.length ≤ f1 := by
          simp only [List.length_cons] at h1
          omega
        have hl2 : rest.length ≤ f2 := by
          simp only [List.length_cons] at h2
          omega
        exact ih _ f2 (le_trans hd hl1) (le_trans hd hl2)

theorem chunks_cons {α : Type} (w : Nat) (hw : w ≠ 0) (l : List α) (hl : l ≠ []) :
    chunks w l = l.take w :: chunks w (l.drop w) := by
  cases l with
  | nil => exact absurd rfl hl
  | cons a rest =>
    rw [chunks, if_neg hw, chunks, if_neg hw]
    show (a :: rest).take w :: chunksF w rest.length ((a :: rest).drop w) = _
    congr 1
    have hd : ((a :: rest).drop w).length ≤ rest.length := by
      rw [List.length_drop, List.length_cons]
      omega
    exact chunksF_congr w hw rest.length ((a :: rest).drop w) _ hd (le_refl _)

theorem render_band_row (w h : Nat) (hw : w ≠ 0) (t : Nat) (band : List Pixel)
    (hband : band.length = w) (ul lr : Complex) (radius : ℚ) :
    render band (w, 1)
      (pixel_to_point (w, h) (0, t) ul lr)
      (pixel_to_point (w, h) (w, t + 1) ul lr) radius
    = exMapM (fun col => renderPixel (w, h) (col, t) ul lr radius) (List.range w) := by
  rw [render, if_pos (by simpa using hband)]
  have hg : gridCoords w 1 = (List.range w).map (fun col => (col, 0)) := by
    simp [gridCoords, List.range_succ]
  rw [hg, exMapM_map]
  exact exMapM_congr _ _ _ (fun col _ => by
    rw [renderPixel, renderPixel, pixel_to_point_band w h hw])

theorem bands_rows (w h : Nat) (hw : w ≠ 0) (ul lr : Complex) (radius : ℚ) :
    ∀ (n t : Nat) (pixels : List Pixel), pixels.length = w * n →
      exMapM (fun b => render b.2 (w, 1)
          (pixel_to_point (w, h) (0, b.1) ul lr)
          (pixel_to_point (w, h) (w, b.1 + 1) ul lr) radius)
        (List.enumFrom t (chunks w pixels))
      = exMapM (fun s => exMapM
            (fun col => renderPixel (w, h) (col, s) ul lr radius) (List.range w))
          (List.range' t n) := by
  intro n
  induction n with
  | zero =>
    intro t pixels hp
    have hnil : pixels = [] := List.eq_nil_of_length_eq_zero (by simpa using hp)
    subst hnil
    have hc : chunks w ([] : List Pixel) = [] := by
      rw [chunks]
      split <;> rfl
    rw [hc]
    rfl
  | succ n ih =>
    intro t pixels hp
    have hwpos : 0 < w := Nat.pos_of_ne_zero hw
    have hne : pixels ≠ [] := by
      intro hnil
      rw [hnil] at hp
      simp only [List.length_nil] at hp
      have : 0 < w * (n + 1) := Nat.mul_pos hwpos (Nat.succ_pos n)
      omega
    have hwle : w ≤ pixels.length := by
      rw [hp, Nat.mul_succ]; omega
    have htake : (pixels.take w).length = w := by
      rw [List.length_take]; omega
    have hdrop : (pixels.drop w).length = w * n := by
      rw [List.length_drop, hp, Nat.mul_succ]; omega
    rw [chunks_cons w hw pixels hne, List.enumFrom_cons, List.range'_succ]
    have hhead := render_band_row w h hw t (pixels.take w) htake ul lr radius
    have htail := ih (t + 1) (pixels.drop w) hdrop
    simp only [exMapM]
    rw [hhead, htail]

theorem render_rows (w h : Nat) (pixels : List Pixel) (hp : pixels.length = w * h)
    (ul lr : Complex) (radius : ℚ) :
    render pixels (w, h) ul lr radius =
      Except.map List.flatten
        (exMapM (fun s => exMapM
            (fun col => renderPixel (w, h) (col, s) ul lr radius) (List.range w))
          (List.range h)) := by
  rw [render, if_pos hp, gridCoords, exMapM_flatMap]
  congr 1
  exact exMapM_congr _ _ _ (fun row _ => exMapM_map _ _ _)

/-! ## Render success for nonnegative radius -/

theorem colorize_escape_ok (c : Complex) (r : ℚ) (hr : 0 ≤ r) :
    ∃ p, colorize (escape_time c 255 r) = Except.ok p :=
  ⟨_, colorize_ok_of_energy_le _ (energyOf_le_254 c r hr)⟩

theorem render_ok (pixels : List Pixel) (w h : Nat) (ul lr : Complex) (r : ℚ)
    (hr : 0 ≤ r) (hp : pixels.length = w * h) :
    ∃ out, render pixels (w, h) ul lr r = Except.ok out := by
  rw [render, if_pos hp]
  exact exMapM_ok_of_forall _ _ (fun p _ => colorize_escape_ok _ r hr)

theorem render_no_assert (pixels : List Pixel) (w h : Nat) (ul lr : Complex) (r : ℚ) :
    render pixels (w, h) ul lr r = Except.error RenderError.assertionFailure ↔
      pixels.length ≠ w * h := by
  constructor
  · intro hfail
    intro hlen
    rw [render, if_pos hlen] at hfail
    obtain ⟨p, -, hp⟩ := exMapM_error_mem _ _ _ hfail
    exact colorize_ne_assert _ hp
  · intro hlen
    rw [render, if_neg hlen]

/-! ## Parsing -/

theorem findChar_eq_none (sep : Char) (s : List Char) :
    findChar sep s = none ↔ sep ∉ s := by
  induction s with
  | nil => simp [findChar]
  | cons c rest ih =>
    by_cases hc : c = sep
    · subst hc
      simp [findChar]
    · simp only [findChar, if_neg hc, List.mem_cons]
      rw [Option.map_eq_none']
      rw [ih]
      constructor
      · intro hno hmem
        rcases hmem with heq | hmem
        · exact hc heq.symm
        · exact hno hmem
      · intro hno hmem
        exact hno (Or.inr hmem)

theorem findChar_some (sep : Char) :
    ∀ (s : List Char) (i : Nat), findChar sep s = some i →
      s.take i = s.takeWhile (fun c => c != sep) ∧
        s.drop (i + 1) = (s.dropWhile (fun c => c != sep)).tail ∧ sep ∈ s := by
  intro s
  induction s with
  | nil => intro i h; exact Option.noConfusion h
  | cons c rest ih =>
    intro i h
    by_cases hc : c = sep
    · subst hc
      rw [findChar, if_pos rfl] at h
      have hi : i = 0 := (Option.some.inj h).symm
      subst hi
      refine ⟨?_, ?_, List.mem_cons_self c rest⟩
      · rw [List.take_zero, List.takeWhile_cons]
        simp
      · rw [List.dropWhile_cons]
        simp
    · rw [findChar, if_neg hc] at h
      rcases hj : findChar sep rest with - | j
      · rw [hj] at h
        exact Option.noConfusion h
      · rw [hj, Option.map_some'] at h
        have hi : i = j + 1 := ((Option.some.injEq _ _).mp h).symm
        subst hi
        obtain ⟨h1, h2, h3⟩ := ih j hj
        have hne : (c != sep) = true := bne_iff_ne.mpr hc
        refine ⟨?_, ?_, List.mem_cons_of_mem c h3⟩
        · rw [List.take_succ_cons, List.takeWhile_cons, if_pos hne, h1]
        · rw [List.drop_succ_cons, List.dropWhile_cons, if_pos hne, h2]

theorem parse_pair_some_iff {T : Type} (fromStr : List Char → Option T)
    (s : List Char) (sep : Char) (l r : T) :
    parse_pair fromStr s sep = some (l, r) ↔
      sep ∈ s ∧ fromStr (s.takeWhile (fun c => c != sep)) = some l ∧
        fromStr ((s.dropWhile (fun c => c != sep)).tail) = some r := by
  rcases hf : findChar sep s with - | i
  · simp only [parse_pair]
    rw [hf]
    constructor
    · intro h; exact Option.noConfusion h
    · rintro ⟨hmem, -, -⟩
      exact absurd hmem ((findChar_eq_none sep s).mp hf)
  · simp only [parse_pair]
    rw [hf]
    obtain ⟨h1, h2, h3⟩ := findChar_some sep s i hf
    rw [← h1, ← h2]
    simp only [h3, true_and]
    rcases hl : fromStr (s.take i) with - | a <;>
      rcases hr : fromStr (s.drop (i + 1)) with - | b <;>
      simp

theorem parse_pair_eq_some {T : Type} (fromStr : List Char → Option T)
    (s : List Char) (sep : Char) (i : Nat) (l r : T)
    (hf : findChar sep s = some i) (hl : fromStr (s.take i) = some l)
    (hr : fromStr (s.drop (i + 1)) = some r) :
    parse_pair fromStr s sep = some (l, r) := by
  simp only [parse_pair, hf, hl, hr]

theorem parseF64_half : parseF64 ("0.5".toList) = some (1/2 : ℚ) := by
  have hp : parseF64parts ("0.5".toList) = some (0, 5, 1) := by decide
  show (parseF64parts ("0.5".toList)).map (ratOfParts false) = some (1/2 : ℚ)
  rw [hp, Option.map_some']
  congr 1
  rw [ratOfParts]
  norm_num

theorem parseF64_three_halves : parseF64 ("1.5".toList) = some (3/2 : ℚ) := by
  have hp : parseF64parts ("1.5".toList) = some (1, 5, 1) := by decide
  show (parseF64parts ("1.5".toList)).map (ratOfParts false) = some (3/2 : ℚ)
  rw [hp, Option.map_some']
  congr 1
  rw [ratOfParts]
  norm_num

/-! ## Helper for one-by-one rendering -/

theorem exMapM_singleton {E A B : Type} (f : A → Except E B) (x : A) :
    exMapM f [x] =
      match f x with
      | Except.error e => Except.error e
      | Except.ok b => Except.ok [b] := by
  rcases hfx : f x with e | b <;> simp [exMapM, hfx]

theorem render_single (p : Pixel) (ul lr : Complex) (r : ℚ) :
    render [p] (1, 1) ul lr r =
      match renderPixel (1, 1) (0, 0) ul lr r with
      | Except.error e => Except.error e
      | Except.ok q => Except.ok [q] := by
  rw [render, if_pos (by simp)]
  have hg : gridCoords 1 1 = [(0, 0)] := by
    simp [gridCoords, List.range_succ]
  rw [hg, exMapM_singleton]
  rcases renderPixel (1, 1) (0, 0) ul lr r with e | q <;> rfl

/-! ## Claims -/

/-- C1 (amended): rendering the full buffer monolithically and rendering it
as one-row bands — whose corners come from mapping pixels `(0, top)` and
`(width, top + 1)` against the full bounds and viewport, each band rendered
with bounds `(width, 1)` — produce identical pixel buffers for every
positive bounds and every viewport **under exact (unrounded) arithmetic**.
Under the program's binary64 arithmetic the identity can fail (see the
counterexample below): the band corner round-trip `(w * width) / w` need
not return `width`, so a pixel's point can round to an adjacent double and
change its escape count. -/
theorem renderBands_eq_render (pixels : List Pixel) (w h : Nat) (ul lr : Complex)
    (radius : ℚ) (hw : 0 < w) (_hh : 0 < h) (hp : pixels.length = w * h) :
    renderBands pixels (w, h) ul lr radius = render pixels (w, h) ul lr radius := by
  have hw' : w ≠ 0 := Nat.pos_iff_ne_zero.mp hw
  show Except.map List.flatten
      (exMapM (fun b => render b.2 (w, 1)
          (pixel_to_point (w, h) (0, b.1) ul lr)
          (pixel_to_point (w, h) (w, b.1 + 1) ul lr) radius)
        (List.enumFrom 0 (chunks w pixels)))
    = render pixels (w, h) ul lr radius
  rw [bands_rows w h hw' ul lr radius h 0 pixels hp, ← List.range_eq_range',
    render_rows w h pixels hp ul lr radius]

theorem renderBands_eq_render_witness :
    renderBands [(9, 9, 9)] (1, 1) ⟨0, 0⟩ ⟨0, 0⟩ 4
      = render [(9, 9, 9)] (1, 1) ⟨0, 0⟩ ⟨0, 0⟩ 4 :=
  renderBands_eq_render [(9, 9, 9)] 1 1 ⟨0, 0⟩ ⟨0, 0⟩ 4 (by norm_num) (by norm_num)
    (by simp)

set_option maxRecDepth 1000000 in
set_option maxHeartbeats 4000000 in
/-- C1 counterexample: under genuine IEEE-754 binary64 arithmetic the
band/monolithic identity fails.  At bounds `(7, 1)`, upper-left `0 + 0i`,
lower-right `1.7514088053851156 − 0.1i` (the doubles `7887644043305812·2⁻⁵²`
and `−7205759403792794·2⁻⁵⁶`), radius `4.0`: the monolithic render maps
pixel 1 to the double `4507225167603321·2⁻⁵⁴` (escape count 220, pixel
`(35, 20, 0)`), while the band path — whose corners went through the
rounded `(w·width)/w` round-trip — maps it to the adjacent double
`4507225167603322·2⁻⁵⁴` (escape count 219, pixel `(36, 204, 0)`), so the
two buffers differ. -/
theorem renderBands64_ne_render64 :
    ([(0,0,0), (0,0,0), (0,0,0), (0,0,0), (0,0,0), (0,0,0), (0,0,0)] : List Pixel).length
        = 7 * 1 ∧
    render64 [(0,0,0), (0,0,0), (0,0,0), (0,0,0), (0,0,0), (0,0,0), (0,0,0)] (7, 1)
        ⟨⟨0, 0⟩, ⟨0, 0⟩⟩ ⟨⟨7887644043305812, -52⟩, ⟨-7205759403792794, -56⟩⟩ ⟨4, 0⟩
      = Except.ok [(0,0,0), (35,20,0), (250,226,50), (252,244,84),
          (253,250,126), (253,250,126), (253,250,126)] ∧
    renderBands64 [(0,0,0), (0,0,0), (0,0,0), (0,0,0), (0,0,0), (0,0,0), (0,0,0)] (7, 1)
        ⟨⟨0, 0⟩, ⟨0, 0⟩⟩ ⟨⟨7887644043305812, -52⟩, ⟨-7205759403792794, -56⟩⟩ ⟨4, 0⟩
      = Except.ok [(0,0,0), (36,204,0), (250,226,50), (252,244,84),
          (253,250,126), (253,250,126), (253,250,126)] ∧
    renderBands64 [(0,0,0), (0,0,0), (0,0,0), (0,0,0), (0,0,0), (0,0,0), (0,0,0)] (7, 1)
        ⟨⟨0, 0⟩, ⟨0, 0⟩⟩ ⟨⟨7887644043305812, -52⟩, ⟨-7205759403792794, -56⟩⟩ ⟨4, 0⟩
      ≠ render64 [(0,0,0), (0,0,0), (0,0,0), (0,0,0), (0,0,0), (0,0,0), (0,0,0)] (7, 1)
        ⟨⟨0, 0⟩, ⟨0, 0⟩⟩ ⟨⟨7887644043305812, -52⟩, ⟨-7205759403792794, -56⟩⟩ ⟨4, 0⟩ := by
  have hm : render64 [(0,0,0), (0,0,0), (0,0,0), (0,0,0), (0,0,0), (0,0,0), (0,0,0)] (7, 1)
      ⟨⟨0, 0⟩, ⟨0, 0⟩⟩ ⟨⟨7887644043305812, -52⟩, ⟨-7205759403792794, -56⟩⟩ ⟨4, 0⟩
    = Except.ok [(0,0,0), (35,20,0), (250,226,50), (252,244,84),
        (253,250,126), (253,250,126), (253,250,126)] := rfl
  have hb : renderBands64 [(0,0,0), (0,0,0), (0,0,0), (0,0,0), (0,0,0), (0,0,0), (0,0,0)] (7, 1)
      ⟨⟨0, 0⟩, ⟨0, 0⟩⟩ ⟨⟨7887644043305812, -52⟩, ⟨-7205759403792794, -56⟩⟩ ⟨4, 0⟩
    = Except.ok [(0,0,0), (36,204,0), (250,226,50), (252,244,84),
        (253,250,126), (253,250,126), (253,250,126)] := rfl
  refine ⟨rfl, hm, hb, fun heq => ?_⟩
  rw [hm, hb] at heq
  exact absurd (Except.ok.inj heq) (by decide)

/-- C2: `escape_time` returns `some i` exactly when `i` is the least index
below `limit` whose iterate (with `z_0 = 0`, `z_{n+1} = z_n² + c`) has
squared norm above the radius — the test precedes the update — and `none`
when no such index exists; every returned count is below `limit`. -/
theorem escape_time_characterization (c : Complex) (limit : Nat) (r : ℚ) :
    (∀ i, escape_time c limit r = some i ↔
      (i < limit ∧ r < norm_sqr (zIter c i) ∧
        ∀ j, j < i → norm_sqr (zIter c j) ≤ r)) ∧
    (escape_time c limit r = none ↔ ∀ i, i < limit → norm_sqr (zIter c i) ≤ r) ∧
    (∀ k, escape_time c limit r = some k → k < limit) :=
  ⟨escape_time_some_iff c limit r, escape_time_none_iff c limit r,
    fun k hk => ((escape_time_some_iff c limit r k).mp hk).1⟩

theorem escape_time_characterization_witness :
    escape_time ⟨3, 0⟩ 10 4 = some 1 := by
  refine ((escape_time_characterization ⟨3, 0⟩ 10 4).1 1).mpr
    ⟨by norm_num, ?_, ?_⟩
  · have hz : zIter ⟨3, 0⟩ 1 = ⟨3, 0⟩ := by
      rw [zIter_succ]
      show (⟨0, 0⟩ : Complex) * ⟨0, 0⟩ + ⟨3, 0⟩ = ⟨3, 0⟩
      rw [Complex.mul_def, Complex.add_def]
      norm_num
    rw [hz, norm_sqr]
    norm_num
  · intro j hj
    have hj0 : j = 0 := by omega
    subst hj0
    rw [norm_sqr_zIter_zero]
    norm_num

/-- C3 (amended): for escaped counts `1 ≤ count < 255` the blue channel is
`energy / (255 − energy)` truncated, with `energy = 255 − count`; in the
edge case `count = 0` (energy 255) the colorization is the fatal
division-by-zero panic, not a defined pixel with blue 0. -/
theorem colorize_blue_channel :
    (∀ count : Nat, 0 < count → count < 255 →
      colorize (some count) = Except.ok (255 - count,
        (255 - count) * (255 - (255 - count)) % 256,
        (255 - count) / (255 - (255 - count)))) ∧
    colorize (some 0) = Except.error RenderError.divByZero := by
  refine ⟨?_, rfl⟩
  intro count h0 h255
  have hm : count % 256 = count := Nat.mod_eq_of_lt (by omega)
  have he : energyOf (some count) = 255 - count := by simp [energyOf, hm]
  rw [colorize, he, if_neg (by omega)]

theorem colorize_blue_channel_witness :
    colorize (some 2) = Except.ok (255 - 2, (255 - 2) * (255 - (255 - 2)) % 256,
      (255 - 2) / (255 - (255 - 2))) :=
  colorize_blue_channel.1 2 (by norm_num) (by norm_num)

/-- C3 counterexample: at `count = 0` (energy 255) the colorization hits the
`u8` division by zero — a fatal panic — rather than being defined with
blue = 0: no pixel is produced at all. -/
theorem colorize_energy255_counterexample :
    colorize (some 0) = Except.error RenderError.divByZero ∧
      ¬ ∃ p : Pixel, colorize (some 0) = Except.ok p :=
  ⟨rfl, fun hex => Except.noConfusion hex.choose_spec⟩

/-- C4: whenever the colorized pixel for `Some(count)` exists, its red
channel is `energy = 255 − count` and its green channel is
`energy × (255 − energy)` reduced into the byte range. -/
theorem colorize_red_green (count : Nat) (hc : count < 255) (p : Pixel)
    (hp : colorize (some count) = Except.ok p) :
    p.1 = 255 - count ∧ p.2.1 = (255 - count) * (255 - (255 - count)) % 256 := by
  have hm : count % 256 = count := Nat.mod_eq_of_lt (by omega)
  have he : energyOf (some count) = 255 - count := by simp [energyOf, hm]
  rw [colorize, he] at hp
  by_cases h0 : count = 0
  · subst h0
    rw [if_pos (by norm_num)] at hp
    exact Except.noConfusion hp
  · rw [if_neg (by omega)] at hp
    have hq := Except.ok.inj hp
    rw [← hq]
    exact ⟨rfl, rfl⟩

theorem colorize_red_green_witness :
    ((254, 254, 254) : Pixel).1 = 255 - 1 ∧
      ((254, 254, 254) : Pixel).2.1 = (255 - 1) * (255 - (255 - 1)) % 256 :=
  colorize_red_green 1 (by norm_num) (254, 254, 254) rfl

/-- C5: the point `0 + 0i` never escapes for any positive limit (with the
canonical radius-squared 4), and rendering a 1×1 image with viewport
`upperLeft = lowerRight = (0, 0)` completes and produces one black pixel. -/
theorem zero_point_rendering :
    (∀ limit : Nat, 0 < limit → escape_time ⟨0, 0⟩ limit 4 = none) ∧
    (∀ p : Pixel, render [p] (1, 1) ⟨0, 0⟩ ⟨0, 0⟩ 4 = Except.ok [(0, 0, 0)]) := by
  have hnone : ∀ limit : Nat, escape_time ⟨0, 0⟩ limit 4 = none :=
    fun limit => escape_time_zero_point limit 4 (by norm_num)
  refine ⟨fun limit _ => hnone limit, fun p => ?_⟩
  rw [render_single]
  have hpx : renderPixel (1, 1) (0, 0) ⟨0, 0⟩ ⟨0, 0⟩ 4 = Except.ok (0, 0, 0) := by
    rw [renderPixel, pixel_to_point_origin, hnone 255, colorize_none_eq]
  rw [hpx]

theorem zero_point_rendering_witness :
    escape_time ⟨0, 0⟩ 3 4 = none ∧
      render [(1, 2, 3)] (1, 1) ⟨0, 0⟩ ⟨0, 0⟩ 4 = Except.ok [(0, 0, 0)] :=
  ⟨zero_point_rendering.1 3 (by norm_num), zero_point_rendering.2 (1, 2, 3)⟩

/-- C6: for nonzero bounds, pixel `(0, 0)` maps exactly to the upper-left
corner and pixel `(width, height)` exactly to the lower-right corner; the
concrete scenario maps to `(-0.5, -0.75)`. -/
theorem pixel_to_point_spec :
    (∀ (w h : Nat) (ul lr : Complex), w ≠ 0 → h ≠ 0 →
      pixel_to_point (w, h) (0, 0) ul lr = ul ∧
        pixel_to_point (w, h) (w, h) ul lr = lr) ∧
    pixel_to_point (100, 200) (25, 175) ⟨-1, 1⟩ ⟨1, -1⟩ = ⟨-1/2, -3/4⟩ :=
  ⟨fun w h ul lr hw hh =>
    ⟨pixel_to_point_origin w h ul lr, pixel_to_point_corner w h hw hh ul lr⟩,
    pixel_to_point_concrete⟩

theorem pixel_to_point_spec_witness :
    pixel_to_point (3, 5) (0, 0) ⟨2, 7⟩ ⟨4, 1⟩ = ⟨2, 7⟩ ∧
      pixel_to_point (3, 5) (3, 5) ⟨2, 7⟩ ⟨4, 1⟩ = ⟨4, 1⟩ :=
  pixel_to_point_spec.1 3 5 ⟨2, 7⟩ ⟨4, 1⟩ (by norm_num) (by norm_num)

/-- C7 (amended): `render` fails with the assertion failure exactly when the
buffer length differs from `width × height`; under that precondition and a
nonnegative escape radius (the program always passes 4.0) the call
completes.  (With a negative radius the call can instead hit the
colorizer's division-by-zero panic even when the precondition holds.) -/
theorem render_precondition :
    (∀ (pixels : List Pixel) (w h : Nat) (ul lr : Complex) (r : ℚ),
      render pixels (w, h) ul lr r = Except.error RenderError.assertionFailure ↔
        pixels.length ≠ w * h) ∧
    (∀ (pixels : List Pixel) (w h : Nat) (ul lr : Complex) (r : ℚ), 0 ≤ r →
      pixels.length = w * h → ∃ out, render pixels (w, h) ul lr r = Except.ok out) :=
  ⟨fun pixels w h ul lr r => render_no_assert pixels w h ul lr r,
    fun pixels w h ul lr r hr hp => render_ok pixels w h ul lr r hr hp⟩

theorem render_precondition_witness :
    (render [] (1, 1) ⟨0, 0⟩ ⟨0, 0⟩ 4 = Except.error RenderError.assertionFailure ↔
      ([] : List Pixel).length ≠ 1 * 1) ∧
    ∃ out, render [(7, 7, 7)] (1, 1) ⟨0, 0⟩ ⟨0, 0⟩ 4 = Except.ok out :=
  ⟨render_precondition.1 [] 1 1 ⟨0, 0⟩ ⟨0, 0⟩ 4,
    render_precondition.2 [(7, 7, 7)] 1 1 ⟨0, 0⟩ ⟨0, 0⟩ 4 (by norm_num) (by simp)⟩

/-- C7 counterexample: with the precondition satisfied (buffer length
`1 = 1 × 1`) but a negative radius, the call does not complete — it hits the
division-by-zero panic — so "under the precondition the call completes" is
false as stated for every radius. -/
theorem render_completes_counterexample :
    ([((0 : Nat), (0 : Nat), (0 : Nat))] : List Pixel).length = 1 * 1 ∧
    render [(0, 0, 0)] (1, 1) ⟨0, 0⟩ ⟨0, 0⟩ (-1) = Except.error RenderError.divByZero ∧
    ¬ ∃ out, render [(0, 0, 0)] (1, 1) ⟨0, 0⟩ ⟨0, 0⟩ (-1) = Except.ok out := by
  have hdiv : render [(0, 0, 0)] (1, 1) ⟨0, 0⟩ ⟨0, 0⟩ (-1)
      = Except.error RenderError.divByZero := by
    rw [render_single]
    have hesc : escape_time ⟨0, 0⟩ 255 (-1) = some 0 :=
      (escape_time_some_iff ⟨0, 0⟩ 255 (-1) 0).mpr
        ⟨by norm_num, by rw [norm_sqr_zIter_zero]; norm_num,
          fun j hj => absurd hj (Nat.not_lt_zero j)⟩
    have hpx : renderPixel (1, 1) (0, 0) ⟨0, 0⟩ ⟨0, 0⟩ (-1)
        = Except.error RenderError.divByZero := by
      rw [renderPixel, pixel_to_point_origin, hesc]
      rfl
    rw [hpx]
  refine ⟨rfl, hdiv, ?_⟩
  rintro ⟨out, hout⟩
  rw [hdiv] at hout
  exact Except.noConfusion hout

/-- C8: `parse_pair` on `"10,20"` with `','` yields `(10, 20)`; on `"10,"`
it yields a parse failure; on `"0.5x1.5"` with `'x'` it yields
`(0.5, 1.5)`. -/
theorem parse_pair_concrete :
    parse_pair parseI32 ("10,20".toList) ',' = some (10, 20) ∧
    parse_pair parseI32 ("10,".toList) ',' = none ∧
    parse_pair parseF64 ("0.5x1.5".toList) 'x' = some (1/2, 3/2) := by
  refine ⟨by decide, by decide, ?_⟩
  refine parse_pair_eq_some parseF64 _ 'x' 3 _ _ (by decide) ?_ ?_
  · have ht : ("0.5x1.5".toList).take 3 = "0.5".toList := by decide
    rw [ht, parseF64_half]
  · have hd : ("0.5x1.5".toList).drop 4 = "1.5".toList := by decide
    rw [hd, parseF64_three_halves]

/-- C9: for a nonnegative radius `escape_time` never returns `Some(0)`
(the initial iterate has squared norm 0); hence with limit 255 the energy
is at most 254, the blue divisor `255 − energy` is at least 1, the
colorization never divides by zero, and `render` at the program's radius
4.0 completes whenever the length precondition holds. -/
theorem escape_no_zero_count :
    (∀ (c : Complex) (limit : Nat) (r : ℚ), 0 ≤ r → escape_time c limit r ≠ some 0) ∧
    (∀ (c : Complex) (r : ℚ), 0 ≤ r → energyOf (escape_time c 255 r) ≤ 254 ∧
      1 ≤ 255 - energyOf (escape_time c 255 r)) ∧
    (∀ (c : Complex) (r : ℚ), 0 ≤ r →
      ∃ p, colorize (escape_time c 255 r) = Except.ok p) ∧
    (∀ (pixels : List Pixel) (w h : Nat) (ul lr : Complex), pixels.length = w * h →
      ∃ out, render pixels (w, h) ul lr 4 = Except.ok out) :=
  ⟨fun c limit r hr => escape_time_ne_some_zero c limit r hr,
    fun c r hr => ⟨energyOf_le_254 c r hr, by have := energyOf_le_254 c r hr; omega⟩,
    fun c r hr => colorize_escape_ok c r hr,
    fun pixels w h ul lr hp => render_ok pixels w h ul lr 4 (by norm_num) hp⟩

theorem escape_no_zero_count_witness :
    escape_time ⟨0, 0⟩ 7 (4 : ℚ) ≠ some 0 ∧
      ∃ out, render [(3, 3, 3)] (1, 1) ⟨0, 0⟩ ⟨0, 0⟩ 4 = Except.ok out :=
  ⟨escape_no_zero_count.1 ⟨0, 0⟩ 7 4 (by norm_num),
    escape_no_zero_count.2.2.2 [(3, 3, 3)] 1 1 ⟨0, 0⟩ ⟨0, 0⟩ (by simp)⟩

/-- C10: `parse_pair` returns `some (l, r)` exactly when the separator
occurs in the string and both the prefix strictly before its first
occurrence and the whole remainder after it parse; in particular trailing
text or a second separator in the remainder yields `none`. -/
theorem parse_pair_characterization :
    (∀ (T : Type) (fromStr : List Char → Option T) (s : List Char) (sep : Char) (l r : T),
      parse_pair fromStr s sep = some (l, r) ↔
        (sep ∈ s ∧ fromStr (s.takeWhile (fun c => c != sep)) = some l ∧
          fromStr ((s.dropWhile (fun c => c != sep)).tail) = some r)) ∧
    parse_pair parseI32 ("10,20xy".toList) ',' = none ∧
    parse_pair parseI32 ("10,20,30".toList) ',' = none :=
  ⟨fun T fromStr s sep l r => parse_pair_some_iff fromStr s sep l r,
    by decide, by decide⟩

theorem parse_pair_characterization_witness :
    parse_pair parseI32 ("7,8".toList) ',' = some (7, 8) :=
  (parse_pair_characterization.1 Int parseI32 ("7,8".toList) ',' 7 8).mpr
    ⟨by decide, by decide, by decide⟩

end Twod
